import Mathlib

/-!
Verification of the unified-diff parsing engine of the repository
(`project/first/solution.py` and `project/changeset_management/webhooks.py`).

Python strings are modelled as `List Char`; every function below is a direct
translation of the corresponding Python function, keeping its name where Lean
allows it.  Whitespace classes model the ASCII whitespace characters relevant
to diff text.
-/

/-- ASCII whitespace, modelling both Python `str.strip()` and the regex
class `\s` on the ASCII range. -/
def isPySpace (c : Char) : Bool :=
  c = ' ' || c = '\t' || c = '\n' || c = '\r' || c = '\x0b' || c = '\x0c'

/-- Python `s.strip()`: remove leading and trailing whitespace. -/
def pyStrip (l : List Char) : List Char :=
  ((l.dropWhile isPySpace).reverse.dropWhile isPySpace).reverse

/-- Python `s.split(sep)` for a one-character separator: no collapsing,
always returns at least one (possibly empty) piece. -/
def pySplit (sep : Char) : List Char → List (List Char)
  | [] => [[]]
  | c :: rest =>
    if c = sep then [] :: pySplit sep rest
    else
      match pySplit sep rest with
      | [] => [[c]]
      | h :: t => (c :: h) :: t

/-- Python `s.split('\n')`. -/
def pySplitNl (l : List Char) : List (List Char) := pySplit '\n' l

/-- Python `'\n'.join(pieces)`. -/
def joinNl : List (List Char) → List Char
  | [] => []
  | [l] => l
  | l :: rest => l ++ '\n' :: joinNl rest

/-- Match a literal at the front of the input; on success return the rest. -/
def dropLit : List Char → List Char → Option (List Char)
  | [], l => some l
  | _ :: _, [] => none
  | p :: ps, c :: cs => if c = p then dropLit ps cs else none

/-- Python `int()` on a string of ASCII digits. -/
def digitsToNat (ds : List Char) : Nat :=
  ds.foldl (fun acc c => acc * 10 + (c.toNat - 48)) 0

/-- Maximal-munch `\d+`: at least one digit, value and rest. -/
def parseDigits (l : List Char) : Option (Nat × List Char) :=
  let ds := l.takeWhile Char.isDigit
  if ds = [] then none else some (digitsToNat ds, l.dropWhile Char.isDigit)

/-- The optional count group `(?:,\d+)?` of the hunk-header regex: if the
input starts with a comma it must be followed by at least one digit
(otherwise the whole match fails, as in the regex); without a comma the
input is left untouched. -/
def skipCount : List Char → Option (List Char)
  | [] => some []
  | c :: rest =>
    if c = ',' then (parseDigits rest).map Prod.snd else some (c :: rest)

/-- The regex `@@ -(\d+)(?:,\d+)? \+(\d+)(?:,\d+)? @@` of
`parse_hunk_header`, applied with `re.match` (anchored at the start of the
line only; trailing text is allowed). -/
def matchHunkHeader (l : List Char) : Option (Nat × Nat) :=
  match dropLit "@@ -".data l with
  | none => none
  | some r1 =>
    match parseDigits r1 with
    | none => none
    | some (a, r2) =>
      match skipCount r2 with
      | none => none
      | some r3 =>
        match dropLit " +".data r3 with
        | none => none
        | some r4 =>
          match parseDigits r4 with
          | none => none
          | some (c, r5) =>
            match skipCount r5 with
            | none => none
            | some r6 =>
              match dropLit " @@".data r6 with
              | none => none
              | some _ => some (a, c)

/-- `parse_hunk_header` from `project/first/solution.py`: extract
`(old_start, new_start)`; on a non-matching line fall back to `(1, 1)`. -/
def parse_hunk_header (header_line : List Char) : Nat × Nat :=
  match matchHunkHeader header_line with
  | some p => p
  | none => (1, 1)

/-- A string of at least one ASCII digit. -/
def IsDigitStr (ds : List Char) : Prop := ds ≠ [] ∧ ∀ c ∈ ds, c.isDigit

/-- Shape of the optional `(?:,\d+)?` count group of a hunk header:
either absent or a comma followed by at least one digit. -/
def CountOpt (x : List Char) : Prop :=
  x = [] ∨ (x.head? = some ',' ∧ x.tail ≠ [] ∧ ∀ c ∈ x.tail, c.isDigit)

/-- Declarative reading of the hunk-header pattern
`@@ -<old_start>[,<old_count>] +<new_start>[,<new_count>] @@` anchored at
the start of the line, with arbitrary trailing text, capturing the two
start numbers. -/
def HeaderMatch (l : List Char) (a c : Nat) : Prop :=
  ∃ ds1 x1 ds2 x2 rest : List Char,
    IsDigitStr ds1 ∧ CountOpt x1 ∧ IsDigitStr ds2 ∧ CountOpt x2 ∧
    l = "@@ -".data ++ ds1 ++ x1 ++ " +".data ++ ds2 ++ x2 ++ " @@".data ++ rest ∧
    a = digitsToNat ds1 ∧ c = digitsToNat ds2

instance (ds : List Char) : Decidable (IsDigitStr ds) := by
  unfold IsDigitStr; infer_instance

instance (x : List Char) : Decidable (CountOpt x) := by
  unfold CountOpt; infer_instance

/-- The `change_type` values of `DiffLine` (`'added'`, `'removed'`,
`'context'` in the source). -/
inductive ChangeType
  | added
  | removed
  | context
deriving DecidableEq

/-- `DiffLine` from `project/first/solution.py`. -/
structure DiffLine where
  line_number : Nat
  content : List Char
  change_type : ChangeType
deriving DecidableEq

/-- `DiffHunk` from `project/first/solution.py`. -/
structure DiffHunk where
  old_start : Nat
  new_start : Nat
  lines : List DiffLine
deriving DecidableEq

/-- `FileDiff` from `project/first/solution.py` (note: the source record
has no `is_binary` field). -/
structure FileDiff where
  file_path : List Char
  hunks : List DiffHunk
  is_new : Bool
  is_deleted : Bool
deriving DecidableEq

/-- The body loop of `parse_single_hunk`: walk the lines after the header
with a running new-file counter, skipping empty lines and lines with an
unknown prefix. -/
def processLines (cur : Nat) : List (List Char) → List DiffLine
  | [] => []
  | l :: rest =>
    if l = [] then processLines cur rest
    else if List.isPrefixOf "+".data l then
      ⟨cur, l.drop 1, ChangeType.added⟩ :: processLines (cur + 1) rest
    else if List.isPrefixOf "-".data l then
      ⟨0, l.drop 1, ChangeType.removed⟩ :: processLines cur rest
    else if List.isPrefixOf " ".data l then
      ⟨cur, l.drop 1, ChangeType.context⟩ :: processLines (cur + 1) rest
    else processLines cur rest

/-- `parse_single_hunk` from `project/first/solution.py`: strip the text,
split into lines, require an `@@` first line, then walk the body. -/
def parse_single_hunk (hunk_text : List Char) : DiffHunk :=
  match pySplitNl (pyStrip hunk_text) with
  | [] => ⟨1, 1, []⟩
  | l0 :: rest =>
    if List.isPrefixOf "@@".data l0 then
      let p := parse_hunk_header l0
      ⟨p.1, p.2, processLines p.2 rest⟩
    else ⟨1, 1, []⟩

/-- `extract_file_path` from `project/first/solution.py`. -/
def extract_file_path (header_line : List Char) : List Char :=
  if List.isPrefixOf "+++".data header_line then
    let path := (pySplit '\t' (header_line.drop 4)).headI
    if List.isPrefixOf "b/".data path then path.drop 2 else path
  else "unknown".data

/-- Python `needle in hay` substring containment. -/
def pyContains (needle : List Char) : List Char → Bool
  | [] => needle.isEmpty
  | c :: rest => List.isPrefixOf needle (c :: rest) || pyContains needle rest

/-- The hunk-collection loop of `parse_unified_diff`: each `@@` line opens
a hunk that extends up to (excluding) the next `@@` line or the end. -/
def collectHunks : List (List Char) → List DiffHunk
  | [] => []
  | l :: rest =>
    if List.isPrefixOf "@@".data l then
      parse_single_hunk
          (joinNl (l :: rest.takeWhile (fun x => ¬ List.isPrefixOf "@@".data x))) ::
        collectHunks (rest.dropWhile (fun x => ¬ List.isPrefixOf "@@".data x))
    else collectHunks rest
termination_by ls => ls.length
decreasing_by
  · exact Nat.lt_succ_of_le (List.dropWhile_sublist _).length_le
  · exact Nat.lt_succ_self _

/-- `parse_unified_diff` from `project/first/solution.py`. -/
def parse_unified_diff (diff_text : List Char) : FileDiff :=
  let lines := pySplitNl diff_text
  let file_path :=
    match lines.find? (fun l => List.isPrefixOf "+++".data l) with
    | some l => extract_file_path l
    | none => "unknown".data
  let is_new := lines.any (fun l => pyContains "new file mode".data l)
  let is_deleted := lines.any (fun l => pyContains "deleted file mode".data l)
  ⟨file_path, collectHunks lines, is_new, is_deleted⟩

/-- The hunk body walk exactly as the spec (§4.3) words it: a line
beginning with `+` is recorded as Added with the current counter which then
increments; a line beginning with `-` is recorded as Removed with line
number 0; a line beginning with a space is recorded as Context with the
current counter which then increments; any other line is skipped; the
one-character prefix is stripped from the recorded content. -/
def specWalk (counter : Nat) : List (List Char) → List DiffLine
  | [] => []
  | l :: rest =>
    if l.head? = some '+' then
      ⟨counter, l.tail, ChangeType.added⟩ :: specWalk (counter + 1) rest
    else if l.head? = some '-' then
      ⟨0, l.tail, ChangeType.removed⟩ :: specWalk counter rest
    else if l.head? = some ' ' then
      ⟨counter, l.tail, ChangeType.context⟩ :: specWalk (counter + 1) rest
    else specWalk counter rest

/-- One step of lazy-group backtracking for a pattern
`(.+?)<sep><continuation>`: `acc` holds the reversed capture consumed so
far (never empty); at each boundary first try the literal separator
followed by the continuation, otherwise let `.` consume one more character
(which must not be a newline). -/
def lazyGo (sep : List Char) (cont : List Char → Option (List Char)) :
    List Char → List Char → Option (List Char × List Char)
  | rem, acc =>
    match (dropLit sep rem).bind cont with
    | some v => some (acc.reverse, v)
    | none =>
      match rem with
      | [] => none
      | c :: cs => if c = '\n' then none else lazyGo sep cont cs (c :: acc)

/-- The trailing group `(.+?)(?:\s|$)` of the `diff --git` pattern: the
capture is the shortest nonempty prefix followed by a whitespace character
or the end of the line; `.` does not match a newline. -/
def lazyTail : List Char → Option (List Char)
  | [] => none
  | c :: rest =>
    if c = '\n' then none
    else some (c :: rest.takeWhile (fun x => ¬ isPySpace x))

/-- The regex `^diff --git a/(.+?) b/(.+?)(?:\s|$)` of `parse_pr_diff`,
with Python lazy-group semantics, anchored at the start of the line. -/
def matchDiffHeader (l : List Char) : Option (List Char × List Char) :=
  match dropLit "diff --git a/".data l with
  | none => none
  | some r =>
    match r with
    | [] => none
    | c :: cs => if c = '\n' then none else lazyGo " b/".data lazyTail cs [c]

/-- The trailing group `(.+?) differ` of the binary pattern: the capture is
the shortest nonempty prefix followed by the literal ` differ`. -/
def binTail : List Char → Option (List Char)
  | [] => none
  | c :: cs =>
    if c = '\n' then none
    else (lazyGo " differ".data some cs [c]).map Prod.fst

/-- The regex `Binary files a/(.+?) and b/(.+?) differ` of `parse_pr_diff`
(`re.match`: anchored at the start of the line, trailing text allowed). -/
def matchBinary (l : List Char) : Option (List Char × List Char) :=
  match dropLit "Binary files a/".data l with
  | none => none
  | some r =>
    match r with
    | [] => none
    | c :: cs => if c = '\n' then none else lazyGo " and b/".data binTail cs [c]

/-- Key resolution of `parse_pr_diff` (webhooks.py, lines 39–41 and
52–53): use the new path, falling back to the old path when the new path
is the deletion sentinel `/dev/null`. -/
def resolveKey (old_path new_path : List Char) : List Char :=
  if new_path = "/dev/null".data then old_path else new_path

/-- Insertion into a Python dict: an existing key keeps its position and
gets the new value, a fresh key is appended at the end. -/
def dictInsert (k v : List Char) :
    List (List Char × List Char) → List (List Char × List Char)
  | [] => [(k, v)]
  | (k1, v1) :: rest =>
    if k1 = k then (k, v) :: rest else (k1, v1) :: dictInsert k v rest

/-- Sealing the open fragment (`if current_file and current_diff:
files[current_file] = '\n'.join(current_diff)`); Python truthiness means an
empty path string or an empty buffer skips the store. -/
def sealFrag (cur : Option (List Char)) (buf : List (List Char))
    (files : List (List Char × List Char)) : List (List Char × List Char) :=
  match cur with
  | some k => if k ≠ [] ∧ buf ≠ [] then dictInsert k (joinNl buf) files else files
  | none => files

/-- The line scan of `parse_pr_diff` from
`project/changeset_management/webhooks.py`: diff headers seal the open
fragment and open a new one, binary markers seal and store a self-contained
two-line fragment, all other lines are collected into the open fragment or
dropped. -/
def prLoop : List (List Char) → Option (List Char) → List (List Char) →
    List (List Char × List Char) → List (List Char × List Char)
  | [], cur, buf, files => sealFrag cur buf files
  | line :: rest, cur, buf, files =>
    match matchDiffHeader line with
    | some (op, np) =>
      prLoop rest (some (resolveKey op np)) [line] (sealFrag cur buf files)
    | none =>
      match matchBinary line with
      | some (op, np) =>
        prLoop rest none []
          (dictInsert (resolveKey op np) (joinNl [line, "Binary file".data])
            (sealFrag cur buf files))
      | none =>
        match cur with
        | some k =>
          if k ≠ [] then prLoop rest (some k) (buf ++ [line]) files
          else prLoop rest (some k) buf files
        | none => prLoop rest none buf files

/-- `parse_pr_diff` from `project/changeset_management/webhooks.py`,
returning the insertion-ordered mapping from file path to raw diff text. -/
def parse_pr_diff (diff_text : List Char) : List (List Char × List Char) :=
  prLoop (pySplitNl diff_text) none [] []

/-- A line that opens no fragment: it matches neither the `diff --git`
pattern nor the `Binary files` pattern. -/
def NonHeader (l : List Char) : Prop :=
  matchDiffHeader l = none ∧ matchBinary l = none

instance (l : List Char) : Decidable (NonHeader l) := by
  unfold NonHeader; infer_instance

/-- Spec-side reading for C9: everything from the first tab character
onward removed (trailing tab-separated metadata stripped). -/
def dropTabOnward (l : List Char) : List Char := l.takeWhile (fun c => c != '\t')

/-- Spec-side reading for C9: a leading `b/` marker removed. -/
def dropBSlash (l : List Char) : List Char :=
  if List.isPrefixOf "b/".data l then l.drop 2 else l

/-- Modelled from the spec: the spec's `FileDiff` record (§3) carries an
`is_binary` flag that the source record in `project/first/solution.py`
lacks. -/
structure FileDiffB where
  file_path : List Char
  hunks : List DiffHunk
  is_new : Bool
  is_deleted : Bool
  is_binary : Bool
deriving DecidableEq

/-- Modelled from the spec: the file-level parse of one fragment carrying
the `is_binary` flag of §3/§4.5 — a fragment is binary iff it contains a
line matching the `Binary files ... differ` pattern; all other fields are
the source's `parse_unified_diff`. -/
def parse_file_spec (frag : List Char) : FileDiffB :=
  let fd := parse_unified_diff frag
  ⟨fd.file_path, fd.hunks, fd.is_new, fd.is_deleted,
    (pySplitNl frag).any (fun l => (matchBinary l).isSome)⟩

/-- Modelled from the spec: the composed engine entry point
`parsePatch(text) -> mapping<path, FileDiff>` of §6 — split with the
source's `parse_pr_diff`, then parse each fragment. -/
def parsePatch (t : List Char) : List (List Char × FileDiffB) :=
  (parse_pr_diff t).map (fun kv => (kv.1, parse_file_spec kv.2))

/-- Invariant of the fragments stored by the splitter: a fragment is either
free of binary-marker lines, or is exactly the two-line fragment the
splitter stores for a binary file. -/
def GoodFrag (v : List Char) : Prop :=
  (∀ l ∈ pySplitNl v, matchBinary l = none) ∨
  (∃ bl, matchBinary bl ≠ none ∧ '\n' ∉ bl ∧ v = bl ++ '\n' :: "Binary file".data)

/-- Python `files[k]` lookup in the insertion-ordered mapping. -/
def dictFind (k : List Char) : List (List Char × List Char) → Option (List Char)
  | [] => none
  | (k1, v1) :: rest => if k1 = k then some v1 else dictFind k rest

-- Basic lemmas about the primitive scanners.

theorem dropLit_append (p r : List Char) : dropLit p (p ++ r) = some r := by
  induction p with
  | nil => rfl
  | cons c cs ih => simpa [dropLit] using ih

theorem dropLit_eq_some {p l r : List Char} (h : dropLit p l = some r) :
    l = p ++ r := by
  induction p generalizing l with
  | nil => simpa [dropLit] using h
  | cons c cs ih =>
    cases l with
    | nil => simp [dropLit] at h
    | cons d ds =>
      by_cases hd : d = c
      · subst hd
        simp only [dropLit, if_pos rfl] at h
        simpa using ih h
      · simp [dropLit, hd] at h

theorem takeWhile_all {p : Char → Bool} {ds : List Char}
    (h : ∀ c ∈ ds, p c) (r : List Char)
    (hr : ∀ c, r.head? = some c → p c = false) :
    (ds ++ r).takeWhile p = ds := by
  induction ds with
  | nil =>
    cases r with
    | nil => rfl
    | cons c cs =>
      have := hr c rfl
      simp [List.takeWhile, this]
  | cons d ds ih =>
    have hd : p d := h d (by simp)
    simp only [List.cons_append, List.takeWhile_cons, hd, if_pos]
    rw [ih (fun c hc => h c (by simp [hc]))]

theorem dropWhile_all {p : Char → Bool} {ds : List Char}
    (h : ∀ c ∈ ds, p c) (r : List Char)
    (hr : ∀ c, r.head? = some c → p c = false) :
    (ds ++ r).dropWhile p = r := by
  induction ds with
  | nil =>
    cases r with
    | nil => rfl
    | cons c cs =>
      have := hr c rfl
      simp [List.dropWhile, this]
  | cons d ds ih =>
    have hd : p d := h d (by simp)
    simp only [List.cons_append, List.dropWhile_cons, hd, if_pos]
    exact ih (fun c hc => h c (by simp [hc]))

theorem parseDigits_exact {ds : List Char} (hne : ds ≠ [])
    (hdig : ∀ c ∈ ds, c.isDigit) (r : List Char)
    (hr : ∀ c, r.head? = some c → c.isDigit = false) :
    parseDigits (ds ++ r) = some (digitsToNat ds, r) := by
  unfold parseDigits
  rw [takeWhile_all hdig r hr, dropWhile_all hdig r hr]
  simp [hne]

theorem parseDigits_eq_some {l : List Char} {a : Nat} {r : List Char}
    (h : parseDigits l = some (a, r)) :
    ∃ ds, ds ≠ [] ∧ (∀ c ∈ ds, c.isDigit) ∧ l = ds ++ r ∧
      a = digitsToNat ds ∧ (∀ c, r.head? = some c → c.isDigit = false) := by
  unfold parseDigits at h
  by_cases hds : l.takeWhile Char.isDigit = []
  · simp [hds] at h
  · rw [if_neg hds] at h
    have hpair := Option.some_injective _ h
    have ha : a = digitsToNat (l.takeWhile Char.isDigit) :=
      (congrArg Prod.fst hpair).symm
    have hrr : r = l.dropWhile Char.isDigit :=
      (congrArg Prod.snd hpair).symm
    refine ⟨l.takeWhile Char.isDigit, hds, ?_, ?_, ha, ?_⟩
    · intro c hc
      exact List.mem_takeWhile_imp hc
    · rw [hrr, List.takeWhile_append_dropWhile]
    · intro c hc
      rw [hrr] at hc
      by_contra hcontra
      have hcd : c.isDigit = true := by
        cases hcd2 : c.isDigit with
        | false => exact absurd hcd2 hcontra
        | true => rfl
      have hhd := List.head?_dropWhile_not Char.isDigit l
      rw [hc] at hhd
      exact absurd hcd (by simpa using hhd)

theorem countOpt_cases {x : List Char} (hx : CountOpt x) :
    x = [] ∨ ∃ t, x = ',' :: t ∧ t ≠ [] ∧ ∀ c ∈ t, c.isDigit := by
  cases hx with
  | inl h => exact Or.inl h
  | inr h =>
    obtain ⟨hh, ht, hd⟩ := h
    cases x with
    | nil => simp at hh
    | cons c t =>
      simp only [List.head?_cons, Option.some.injEq] at hh
      subst hh
      exact Or.inr ⟨t, rfl, by simpa using ht, by simpa using hd⟩

theorem head_not_digit_append {x r : List Char} (hx : CountOpt x) (c0 : Char)
    (hr : r.head? = some c0) (hc0 : c0.isDigit = false) :
    ∀ c, (x ++ r).head? = some c → c.isDigit = false := by
  intro c hc
  rcases countOpt_cases hx with hnil | ⟨t, hxt, _, _⟩
  · subst hnil
    simp only [List.nil_append] at hc
    rw [hr] at hc
    cases hc
    exact hc0
  · subst hxt
    simp only [List.cons_append, List.head?_cons, Option.some.injEq] at hc
    subst hc
    decide

theorem skipCount_over {x r : List Char} (hx : CountOpt x) (c0 : Char)
    (hr : r.head? = some c0) (hc0 : c0.isDigit = false) (hcc : c0 ≠ ',') :
    skipCount (x ++ r) = some r := by
  rcases countOpt_cases hx with hnil | ⟨t, hxt, htne, htd⟩
  · subst hnil
    cases r with
    | nil => simp at hr
    | cons ch rest =>
      simp only [List.head?_cons, Option.some.injEq] at hr
      subst hr
      simp [skipCount, hcc]
  · subst hxt
    have hpd : parseDigits (t ++ r) = some (digitsToNat t, r) := by
      apply parseDigits_exact htne htd
      intro c hc
      rw [hr] at hc
      cases hc
      exact hc0
    simp [skipCount, hpd]

theorem skipCount_eq_some {r r3 : List Char} (h : skipCount r = some r3) :
    ∃ x, CountOpt x ∧ r = x ++ r3 := by
  cases r with
  | nil =>
    simp only [skipCount, Option.some.injEq] at h
    exact ⟨[], Or.inl rfl, by simp [h]⟩
  | cons ch rest =>
    by_cases hch : ch = ','
    · subst hch
      simp only [skipCount, if_pos rfl] at h
      cases hp : parseDigits rest with
      | none => rw [hp] at h; simp at h
      | some p =>
        obtain ⟨a1, r1⟩ := p
        rw [hp] at h
        simp at h
        subst h
        obtain ⟨ds, hne, hdig, heq, _, _⟩ := parseDigits_eq_some hp
        refine ⟨',' :: ds, Or.inr ⟨rfl, by simpa using hne, by simpa using hdig⟩, ?_⟩
        rw [heq]
        simp
    · simp only [skipCount, if_neg hch, Option.some.injEq] at h
      exact ⟨[], Or.inl rfl, by simp [h]⟩

theorem headerComplete {l : List Char} {a c : Nat} (h : HeaderMatch l a c) :
    matchHunkHeader l = some (a, c) := by
  obtain ⟨ds1, x1, ds2, x2, rest, hd1, hx1, hd2, hx2, hl, ha, hcv⟩ := h
  have hassoc : l = "@@ -".data ++ (ds1 ++ (x1 ++ (" +".data ++
      (ds2 ++ (x2 ++ (" @@".data ++ rest)))))) := by
    rw [hl]; simp [List.append_assoc]
  have hsp1 : (" +".data ++ (ds2 ++ (x2 ++ (" @@".data ++ rest)))).head? = some ' ' := rfl
  have hsp2 : (" @@".data ++ rest).head? = some ' ' := rfl
  have h1 : ∀ cc, (x1 ++ (" +".data ++ (ds2 ++ (x2 ++ (" @@".data ++ rest))))).head? =
      some cc → cc.isDigit = false :=
    head_not_digit_append hx1 ' ' hsp1 (by decide)
  have h2 : parseDigits (ds1 ++ (x1 ++ (" +".data ++ (ds2 ++ (x2 ++ (" @@".data ++ rest)))))) =
      some (digitsToNat ds1, x1 ++ (" +".data ++ (ds2 ++ (x2 ++ (" @@".data ++ rest))))) :=
    parseDigits_exact hd1.1 hd1.2 _ h1
  have h3 : skipCount (x1 ++ (" +".data ++ (ds2 ++ (x2 ++ (" @@".data ++ rest))))) =
      some (" +".data ++ (ds2 ++ (x2 ++ (" @@".data ++ rest)))) :=
    skipCount_over hx1 ' ' hsp1 (by decide) (by decide)
  have h4 : ∀ cc, (x2 ++ (" @@".data ++ rest)).head? = some cc → cc.isDigit = false :=
    head_not_digit_append hx2 ' ' hsp2 (by decide)
  have h5 : parseDigits (ds2 ++ (x2 ++ (" @@".data ++ rest))) =
      some (digitsToNat ds2, x2 ++ (" @@".data ++ rest)) :=
    parseDigits_exact hd2.1 hd2.2 _ h4
  have h6 : skipCount (x2 ++ (" @@".data ++ rest)) = some (" @@".data ++ rest) :=
    skipCount_over hx2 ' ' hsp2 (by decide) (by decide)
  rw [hassoc, ha, hcv]
  simp only [matchHunkHeader, dropLit_append, h2, h3, h5, h6]

theorem headerSound {l : List Char} {a c : Nat}
    (h : matchHunkHeader l = some (a, c)) : HeaderMatch l a c := by
  unfold matchHunkHeader at h
  cases e1 : dropLit "@@ -".data l with
  | none => simp only [e1] at h; exact Option.noConfusion h
  | some r1 =>
  simp only [e1] at h
  cases e2 : parseDigits r1 with
  | none => simp only [e2] at h; exact Option.noConfusion h
  | some p1 =>
  obtain ⟨a1, r2⟩ := p1
  simp only [e2] at h
  cases e3 : skipCount r2 with
  | none => simp only [e3] at h; exact Option.noConfusion h
  | some r3 =>
  simp only [e3] at h
  cases e4 : dropLit " +".data r3 with
  | none => simp only [e4] at h; exact Option.noConfusion h
  | some r4 =>
  simp only [e4] at h
  cases e5 : parseDigits r4 with
  | none => simp only [e5] at h; exact Option.noConfusion h
  | some p2 =>
  obtain ⟨c1, r5⟩ := p2
  simp only [e5] at h
  cases e6 : skipCount r5 with
  | none => simp only [e6] at h; exact Option.noConfusion h
  | some r6 =>
  simp only [e6] at h
  cases e7 : dropLit " @@".data r6 with
  | none => simp only [e7] at h; exact Option.noConfusion h
  | some rest =>
  simp only [e7] at h
  simp only [Option.some.injEq, Prod.mk.injEq] at h
  obtain ⟨ha, hc⟩ := h
  obtain ⟨ds1, hne1, hdig1, hr1, ha1, _⟩ := parseDigits_eq_some e2
  obtain ⟨x1, hx1, hr2⟩ := skipCount_eq_some e3
  obtain ⟨ds2, hne2, hdig2, hr4, hc1, _⟩ := parseDigits_eq_some e5
  obtain ⟨x2, hx2, hr5⟩ := skipCount_eq_some e6
  refine ⟨ds1, x1, ds2, x2, rest, ⟨hne1, hdig1⟩, hx1, ⟨hne2, hdig2⟩, hx2, ?_, ?_, ?_⟩
  · rw [dropLit_eq_some e1, hr1, hr2, dropLit_eq_some e4, hr4, hr5, dropLit_eq_some e7]
    simp [List.append_assoc]
  · rw [← ha, ha1]
  · rw [← hc, hc1]

theorem processLines_eq_specWalk (ls : List (List Char)) :
    ∀ cur, processLines cur ls = specWalk cur ls := by
  induction ls with
  | nil => intro cur; rfl
  | cons l rest ih =>
    intro cur
    cases l with
    | nil => simp [processLines, specWalk, ih]
    | cons c t =>
      simp only [processLines, specWalk, List.head?_cons, Option.some.injEq,
        List.tail_cons, List.drop_succ_cons, List.drop_zero]
      by_cases hp : c = '+'
      · subst hp; simp [List.isPrefixOf, ih]
      · by_cases hm : c = '-'
        · subst hm; simp [List.isPrefixOf, ih, String.data]
        · by_cases hs : c = ' '
          · subst hs; simp [List.isPrefixOf, ih]
          · simp [List.isPrefixOf, ih, hp, hm, hs, Ne.symm hp, Ne.symm hm, Ne.symm hs]

theorem specWalk_first {cnt : Nat} {ls : List (List Char)} {dl : DiffLine}
    (h : (specWalk cnt ls).find?
        (fun d => decide (d.change_type ≠ ChangeType.removed)) = some dl) :
    dl.line_number = cnt := by
  induction ls generalizing cnt with
  | nil => simp [specWalk] at h
  | cons l rest ih =>
    simp only [specWalk] at h
    by_cases hp : l.head? = some '+'
    · rw [if_pos hp] at h
      rw [List.find?_cons_of_pos _ (by simp)] at h
      cases h; rfl
    · rw [if_neg hp] at h
      by_cases hm : l.head? = some '-'
      · rw [if_pos hm] at h
        rw [List.find?_cons_of_neg _ (by simp)] at h
        exact ih h
      · rw [if_neg hm] at h
        by_cases hs : l.head? = some ' '
        · rw [if_pos hs] at h
          rw [List.find?_cons_of_pos _ (by simp)] at h
          cases h; rfl
        · rw [if_neg hs] at h
          exact ih h

theorem prLoop_nonheader {l : List Char} (hl : NonHeader l)
    (rest : List (List Char)) (cur : Option (List Char))
    (buf : List (List Char)) (files : List (List Char × List Char)) :
    prLoop (l :: rest) cur buf files =
      match cur with
      | some k =>
        if k ≠ [] then prLoop rest (some k) (buf ++ [l]) files
        else prLoop rest (some k) buf files
      | none => prLoop rest none buf files := by
  simp only [prLoop, hl.1, hl.2]

theorem prLoop_skip {ls : List (List Char)} (h : ∀ l ∈ ls, NonHeader l)
    (rest : List (List Char)) (buf : List (List Char))
    (files : List (List Char × List Char)) :
    prLoop (ls ++ rest) none buf files = prLoop rest none buf files := by
  induction ls with
  | nil => rfl
  | cons l ls ih =>
    rw [List.cons_append, prLoop_nonheader (h l (by simp))]
    exact ih (fun x hx => h x (by simp [hx])) 

theorem prLoop_acc {ls : List (List Char)} (h : ∀ l ∈ ls, NonHeader l)
    {k : List Char} (hk : k ≠ []) (rest : List (List Char)) :
    ∀ buf files, prLoop (ls ++ rest) (some k) buf files =
      prLoop rest (some k) (buf ++ ls) files := by
  induction ls with
  | nil => intro buf files; simp
  | cons l ls ih =>
    intro buf files
    rw [List.cons_append, prLoop_nonheader (h l (by simp))]
    simp only [hk, ne_eq, not_false_iff, if_pos]
    rw [ih (fun x hx => h x (by simp [hx])) (buf ++ [l]) files]
    simp

theorem prLoop_diff {line op np : List Char}
    (hm : matchDiffHeader line = some (op, np)) (rest : List (List Char))
    (cur : Option (List Char)) (buf : List (List Char))
    (files : List (List Char × List Char)) :
    prLoop (line :: rest) cur buf files =
      prLoop rest (some (resolveKey op np)) [line] (sealFrag cur buf files) := by
  simp only [prLoop, hm]

theorem prLoop_bin {line op np : List Char}
    (hd : matchDiffHeader line = none) (hm : matchBinary line = some (op, np))
    (rest : List (List Char)) (cur : Option (List Char))
    (buf : List (List Char)) (files : List (List Char × List Char)) :
    prLoop (line :: rest) cur buf files =
      prLoop rest none []
        (dictInsert (resolveKey op np) (joinNl [line, "Binary file".data])
          (sealFrag cur buf files)) := by
  simp only [prLoop, hd, hm]

theorem lazyGo_fst_ne_nil {sep : List Char} {cont : List Char → Option (List Char)} :
    ∀ {rem acc op v : List Char}, acc ≠ [] →
      lazyGo sep cont rem acc = some (op, v) → op ≠ [] := by
  intro rem
  induction rem with
  | nil =>
    intro acc op v hacc h
    rw [lazyGo] at h
    cases hc : (dropLit sep []).bind cont with
    | none => rw [hc] at h; exact Option.noConfusion h
    | some w =>
      rw [hc] at h
      simp only [Option.some.injEq, Prod.mk.injEq] at h
      rw [← h.1]
      simpa using hacc
  | cons c cs ih =>
    intro acc op v hacc h
    rw [lazyGo] at h
    cases hc : (dropLit sep (c :: cs)).bind cont with
    | none =>
      rw [hc] at h
      by_cases hnl : c = '\n'
      · rw [if_pos hnl] at h; exact Option.noConfusion h
      · rw [if_neg hnl] at h
        exact ih (by simp) h
    | some w =>
      rw [hc] at h
      simp only [Option.some.injEq, Prod.mk.injEq] at h
      rw [← h.1]
      simpa using hacc

theorem lazyGo_snd_sound {sep : List Char} {cont : List Char → Option (List Char)} :
    ∀ {rem acc op v : List Char}, lazyGo sep cont rem acc = some (op, v) →
      ∃ r, cont r = some v := by
  intro rem
  induction rem with
  | nil =>
    intro acc op v h
    rw [lazyGo] at h
    cases hc : (dropLit sep []).bind cont with
    | none => rw [hc] at h; exact Option.noConfusion h
    | some w =>
      rw [hc] at h
      simp only [Option.some.injEq, Prod.mk.injEq] at h
      obtain ⟨r, _, hr⟩ := Option.bind_eq_some.mp hc
      exact ⟨r, by rw [hr, h.2]⟩
  | cons c cs ih =>
    intro acc op v h
    rw [lazyGo] at h
    cases hc : (dropLit sep (c :: cs)).bind cont with
    | none =>
      rw [hc] at h
      by_cases hnl : c = '\n'
      · rw [if_pos hnl] at h; exact Option.noConfusion h
      · rw [if_neg hnl] at h
        exact ih h
    | some w =>
      rw [hc] at h
      simp only [Option.some.injEq, Prod.mk.injEq] at h
      obtain ⟨r, _, hr⟩ := Option.bind_eq_some.mp hc
      exact ⟨r, by rw [hr, h.2]⟩

theorem lazyTail_ne_nil {r v : List Char} (h : lazyTail r = some v) : v ≠ [] := by
  cases r with
  | nil => exact Option.noConfusion h
  | cons c cs =>
    by_cases hnl : c = '\n'
    · simp [lazyTail, hnl] at h
    · simp only [lazyTail, if_neg hnl, Option.some.injEq] at h
      rw [← h]
      simp

theorem binTail_ne_nil {r v : List Char} (h : binTail r = some v) : v ≠ [] := by
  cases r with
  | nil => exact Option.noConfusion h
  | cons c cs =>
    by_cases hnl : c = '\n'
    · simp [binTail, hnl] at h
    · simp only [binTail, if_neg hnl] at h
      cases hg : lazyGo " differ".data some cs [c] with
      | none => rw [hg] at h; exact Option.noConfusion h
      | some p =>
        obtain ⟨op, w⟩ := p
        rw [hg] at h
        simp only [Option.map_some', Option.some.injEq] at h
        rw [← h]
        exact lazyGo_fst_ne_nil (by simp) hg

theorem matchDiffHeader_ne_nil {l op np : List Char}
    (h : matchDiffHeader l = some (op, np)) : op ≠ [] ∧ np ≠ [] := by
  unfold matchDiffHeader at h
  cases e1 : dropLit "diff --git a/".data l with
  | none => rw [e1] at h; exact Option.noConfusion h
  | some r =>
    rw [e1] at h
    cases r with
    | nil => exact Option.noConfusion h
    | cons c cs =>
      have h2 : (if c = '\n' then none
          else lazyGo " b/".data lazyTail cs [c]) = some (op, np) := h
      by_cases hnl : c = '\n'
      · rw [if_pos hnl] at h2; exact Option.noConfusion h2
      · rw [if_neg hnl] at h2
        refine ⟨lazyGo_fst_ne_nil (by simp) h2, ?_⟩
        obtain ⟨r2, hr2⟩ := lazyGo_snd_sound h2
        exact lazyTail_ne_nil hr2

theorem matchBinary_ne_nil {l op np : List Char}
    (h : matchBinary l = some (op, np)) : op ≠ [] ∧ np ≠ [] := by
  unfold matchBinary at h
  cases e1 : dropLit "Binary files a/".data l with
  | none => rw [e1] at h; exact Option.noConfusion h
  | some r =>
    rw [e1] at h
    cases r with
    | nil => exact Option.noConfusion h
    | cons c cs =>
      have h2 : (if c = '\n' then none
          else lazyGo " and b/".data binTail cs [c]) = some (op, np) := h
      by_cases hnl : c = '\n'
      · rw [if_pos hnl] at h2; exact Option.noConfusion h2
      · rw [if_neg hnl] at h2
        refine ⟨lazyGo_fst_ne_nil (by simp) h2, ?_⟩
        obtain ⟨r2, hr2⟩ := lazyGo_snd_sound h2
        exact binTail_ne_nil hr2

theorem resolveKey_ne_nil {op np : List Char} (hop : op ≠ []) (hnp : np ≠ []) :
    resolveKey op np ≠ [] := by
  unfold resolveKey
  by_cases hd : np = "/dev/null".data
  · simp [hd, hop]
  · simp [hd, hnp]

theorem pySplit_ne_nil (sep : Char) (l : List Char) : pySplit sep l ≠ [] := by
  induction l with
  | nil => simp [pySplit]
  | cons c rest ih =>
    by_cases hc : c = sep
    · simp [pySplit, hc]
    · simp only [pySplit, if_neg hc]
      cases hps : pySplit sep rest with
      | nil => exact absurd hps ih
      | cons h t => simp

theorem pySplit_head (sep : Char) (xs : List Char) :
    (pySplit sep xs).headI = xs.takeWhile (fun c => c != sep) := by
  induction xs with
  | nil => rfl
  | cons c rest ih =>
    by_cases hc : c = sep
    · subst hc
      simp [pySplit, List.takeWhile_cons]
    · cases hps : pySplit sep rest with
      | nil => exact absurd hps (pySplit_ne_nil sep rest)
      | cons h t =>
        simp only [pySplit, if_neg hc, hps, List.headI]
        rw [List.takeWhile_cons, if_pos (by simp [hc])]
        rw [hps] at ih
        simp only [List.headI] at ih
        rw [ih]

theorem headerMatch_at {l : List Char} {a c : Nat} (h : HeaderMatch l a c) :
    List.isPrefixOf "@@".data l = true := by
  obtain ⟨ds1, x1, ds2, x2, rest, _, _, _, _, hl, _, _⟩ := h
  subst hl
  rw [show "@@".data = ['@', '@'] from rfl,
    show "@@ -".data = ['@', '@', ' ', '-'] from rfl]
  simp [List.isPrefixOf]

theorem collectHunks_nil (ls : List (List Char))
    (h : ∀ l ∈ ls, List.isPrefixOf "@@".data l = false) : collectHunks ls = [] := by
  induction ls with
  | nil => simp [collectHunks]
  | cons l rest ih =>
    have hl := h l (by simp)
    simp [collectHunks, hl]
    exact ih (fun x hx => h x (by simp [hx]))

/-- C4: a line matching the hunk-header pattern
`@@ -<old_start>[,<old_count>] +<new_start>[,<new_count>] @@` yields its two
captured start numbers; any other line yields the `(1, 1)` fallback, and
the parser — a total function — never raises. -/
theorem C4_header_fallback (l : List Char) :
    (∀ a c, HeaderMatch l a c → parse_hunk_header l = (a, c)) ∧
    ((¬ ∃ a c, HeaderMatch l a c) → parse_hunk_header l = (1, 1)) := by
  constructor
  · intro a c hm
    unfold parse_hunk_header
    rw [headerComplete hm]
  · intro hno
    unfold parse_hunk_header
    cases hmh : matchHunkHeader l with
    | none => rfl
    | some p =>
      obtain ⟨a, c⟩ := p
      exact absurd ⟨a, c, headerSound hmh⟩ hno

/-- Witness for C4 at a matching and at a non-matching concrete line. -/
theorem C4_header_fallback_witness :
    parse_hunk_header "@@ -3,2 +5 @@".data = (3, 5) ∧
    parse_hunk_header "missing at signs".data = (1, 1) := by
  constructor
  · apply (C4_header_fallback _).1
    exact ⟨"3".data, ",2".data, "5".data, [], [], by decide, by decide, by decide,
      by decide, by decide, by decide, by decide⟩
  · apply (C4_header_fallback _).2
    rintro ⟨a, c, hm⟩
    have hc := headerComplete hm
    rw [show matchHunkHeader "missing at signs".data = none from by decide] at hc
    exact Option.noConfusion hc

/-- C10: the hunk-header match is anchored only at the start of the line —
a well-formed header followed by arbitrary trailing text (such as git's
function-context suffix) still yields the declared starts, not the
`(1, 1)` fallback. -/
theorem C10_trailing_text (ds1 x1 ds2 x2 rest : List Char)
    (h1 : IsDigitStr ds1) (hx1 : CountOpt x1)
    (h2 : IsDigitStr ds2) (hx2 : CountOpt x2) :
    parse_hunk_header
        ("@@ -".data ++ ds1 ++ x1 ++ " +".data ++ ds2 ++ x2 ++ " @@".data ++ rest) =
      (digitsToNat ds1, digitsToNat ds2) := by
  unfold parse_hunk_header
  rw [headerComplete ⟨ds1, x1, ds2, x2, rest, h1, hx1, h2, hx2, rfl, rfl, rfl⟩]

/-- Witness for C10 at the spec's example with a function-context suffix. -/
theorem C10_trailing_text_witness :
    parse_hunk_header "@@ -10,6 +11,7 @@ def bar():".data = (10, 11) := by
  have h := C10_trailing_text "10".data ",6".data "11".data ",7".data
    " def bar():".data (by decide) (by decide) (by decide) (by decide)
  rw [show ("@@ -".data ++ "10".data ++ ",6".data ++ " +".data ++ "11".data ++
      ",7".data ++ " @@".data ++ " def bar():".data) =
      "@@ -10,6 +11,7 @@ def bar():".data from by decide] at h
  rw [h]
  decide

/-- C9: the path extractor returns the literal `"unknown"` for lines not
starting with `+++`; for lines starting with `+++` it removes the
four-character `+++ ` prefix, everything from the first tab onward, and a
leading `b/` marker. -/
theorem C9_path_extraction (l : List Char) :
    (List.isPrefixOf "+++".data l = false → extract_file_path l = "unknown".data) ∧
    (List.isPrefixOf "+++".data l = true →
      extract_file_path l = dropBSlash (dropTabOnward (l.drop 4))) := by
  constructor
  · intro h
    simp [extract_file_path, h]
  · intro h
    simp only [extract_file_path, h, if_pos]
    rw [pySplit_head]
    rfl

/-- Witness for C9 at a `+++` line with tab metadata and a `b/` marker, and
at a `---` line. -/
theorem C9_path_extraction_witness :
    extract_file_path "+++ b/src/main.py\t2024-01-01".data = "src/main.py".data ∧
    extract_file_path "--- a/src/main.py".data = "unknown".data := by
  constructor
  · rw [(C9_path_extraction _).2 (by decide)]
    decide
  · exact (C9_path_extraction _).1 (by decide)

/-- C2 (amended): after the parser's initial whitespace strip — i.e. for
any hunk text equal to its own strip — whose first line is a well-formed
header capturing `(a, c)`, the parser seeds the counter at `c` and walks
the body lines exactly as the spec words it (`+` → Added at the counter,
increment; `-` → Removed at 0; single space → Context at the counter,
increment; anything else skipped; one-character prefix stripped), and the
first Added or Context line is assigned line number `c`. -/
theorem C2_hunk_walk (t : List Char) (a c : Nat)
    (hstrip : pyStrip t = t)
    (hh : HeaderMatch (pySplitNl t).headI a c) :
    parse_single_hunk t = ⟨a, c, specWalk c (pySplitNl t).tail⟩ ∧
    (∀ dl, (specWalk c (pySplitNl t).tail).find?
        (fun d => decide (d.change_type ≠ ChangeType.removed)) = some dl →
      dl.line_number = c) := by
  cases hps : pySplitNl t with
  | nil => exact absurd hps (pySplit_ne_nil '\n' t)
  | cons l0 rest =>
    rw [hps] at hh
    simp only [List.headI] at hh
    constructor
    · show (match pySplitNl (pyStrip t) with
        | [] => (⟨1, 1, []⟩ : DiffHunk)
        | l0 :: rest =>
          if List.isPrefixOf "@@".data l0 then
            let p := parse_hunk_header l0
            ⟨p.1, p.2, processLines p.2 rest⟩
          else ⟨1, 1, []⟩) = _
      rw [hstrip, hps]
      simp only [List.tail_cons, headerMatch_at hh, if_pos]
      have hph : parse_hunk_header l0 = (a, c) := by
        unfold parse_hunk_header
        rw [headerComplete hh]
      rw [hph]
      simp only
      rw [processLines_eq_specWalk]
    · simp only [List.tail_cons]
      intro dl hdl
      exact specWalk_first hdl

/-- Witness for C2 at a strip-invariant hunk whose header is the spec's
example `@@ -10,6 +11,7 @@`. -/
theorem C2_hunk_walk_witness :
    parse_single_hunk "@@ -10,6 +11,7 @@\n context\n+more".data =
      ⟨10, 11, specWalk 11 (pySplitNl "@@ -10,6 +11,7 @@\n context\n+more".data).tail⟩ := by
  exact (C2_hunk_walk "@@ -10,6 +11,7 @@\n context\n+more".data 10 11 (by decide)
    ⟨"10".data, ",6".data, "11".data, ",7".data, [], by decide, by decide, by decide,
      by decide, by decide, by decide, by decide⟩).1

/-- Counterexample to C2 as stated: the parser strips the whole text first,
so on a hunk whose last body line carries trailing whitespace the recorded
content is not the line with only the one-character prefix stripped. -/
theorem C2_strip_counterexample :
    parse_single_hunk "@@ -1 +1 @@\n x ".data ≠
      ⟨1, 1, specWalk 1 (pySplitNl "@@ -1 +1 @@\n x ".data).tail⟩ := by decide

/-- C5 (amended): both entry points are total and fail-soft — after the
initial strip, a hunk text whose first line does not start with `@@` (in
particular the empty string) parses to `DiffHunk (1, 1, [])`, and a file
text with no `@@` line parses to a `FileDiff` with zero hunks. -/
theorem C5_fail_soft :
    (∀ t : List Char,
      List.isPrefixOf "@@".data (pySplitNl (pyStrip t)).headI = false →
      parse_single_hunk t = ⟨1, 1, []⟩) ∧
    (∀ t : List Char,
      (∀ l ∈ pySplitNl t, List.isPrefixOf "@@".data l = false) →
      (parse_unified_diff t).hunks = []) := by
  constructor
  · intro t h
    unfold parse_single_hunk
    cases hps : pySplitNl (pyStrip t) with
    | nil => rfl
    | cons l0 rest =>
      rw [hps] at h
      simp only [List.headI] at h
      simp [h]
  · intro t h
    show collectHunks (pySplitNl t) = []
    exact collectHunks_nil (pySplitNl t) h

/-- Witness for C5 at the empty string, a header-less hunk text, and a
header-less file text. -/
theorem C5_fail_soft_witness :
    parse_single_hunk [] = ⟨1, 1, []⟩ ∧
    parse_single_hunk "hello".data = ⟨1, 1, []⟩ ∧
    (parse_unified_diff "hello\nworld".data).hunks = [] :=
  ⟨C5_fail_soft.1 [] (by decide), C5_fail_soft.1 "hello".data (by decide),
    C5_fail_soft.2 "hello\nworld".data (by decide)⟩

/-- Counterexample to C5 as stated: a text whose first line is empty (so
not an `@@` header) is nevertheless parsed as a hunk, because the parser
strips leading whitespace before looking at the first line. -/
theorem C5_leading_newline_counterexample :
    (pySplitNl "\n@@ -5 +7 @@".data).headI = [] ∧
    parse_single_hunk "\n@@ -5 +7 @@".data = ⟨5, 7, []⟩ ∧
    parse_single_hunk "\n@@ -5 +7 @@".data ≠ ⟨1, 1, []⟩ := by decide

/-- C6 (amended): `is_new` is true iff some line contains the
`new file mode` marker and `is_deleted` iff some line contains the
`deleted file mode` marker; the two flags are mutually exclusive exactly
for inputs that do not contain both marker substrings — the parser itself
does not enforce exclusivity. -/
theorem C6_marker_flags (t : List Char) :
    (parse_unified_diff t).is_new =
      (pySplitNl t).any (fun l => pyContains "new file mode".data l) ∧
    (parse_unified_diff t).is_deleted =
      (pySplitNl t).any (fun l => pyContains "deleted file mode".data l) ∧
    (¬((pySplitNl t).any (fun l => pyContains "new file mode".data l) = true ∧
        (pySplitNl t).any (fun l => pyContains "deleted file mode".data l) = true) →
      ¬((parse_unified_diff t).is_new = true ∧
        (parse_unified_diff t).is_deleted = true)) := by
  refine ⟨rfl, rfl, ?_⟩
  intro h hc
  exact h ⟨hc.1, hc.2⟩

/-- Witness for C6 at a new-file diff that contains no deletion marker. -/
theorem C6_marker_flags_witness :
    ¬((parse_unified_diff "new file mode 100644\n+++ b/a.py".data).is_new = true ∧
      (parse_unified_diff "new file mode 100644\n+++ b/a.py".data).is_deleted = true) :=
  (C6_marker_flags _).2.2 (by decide)

/-- Counterexample to C6 as stated: an input containing both marker
substrings produces a `FileDiff` with `is_new` and `is_deleted` both true. -/
theorem C6_both_markers_counterexample :
    (parse_unified_diff "new file mode 100644\ndeleted file mode 100644".data).is_new
        = true ∧
    (parse_unified_diff "new file mode 100644\ndeleted file mode 100644".data).is_deleted
        = true := by decide

theorem prLoop_final {ls : List (List Char)} (h : ∀ l ∈ ls, NonHeader l)
    {k : List Char} (hk : k ≠ []) (buf : List (List Char)) (hbuf : buf ≠ [])
    (files : List (List Char × List Char)) :
    prLoop ls (some k) buf files = dictInsert k (joinNl (buf ++ ls)) files := by
  have hacc := prLoop_acc h hk [] buf files
  rw [List.append_nil] at hacc
  rw [hacc]
  show sealFrag (some k) (buf ++ ls) files = _
  simp only [sealFrag]
  rw [if_pos ⟨hk, by simp [hbuf]⟩]

theorem binary_not_diff {l : List Char} {p : List Char × List Char}
    (h : matchBinary l = some p) : matchDiffHeader l = none := by
  cases hd : matchDiffHeader l with
  | none => rfl
  | some q =>
    unfold matchBinary at h
    unfold matchDiffHeader at hd
    cases e1 : dropLit "Binary files a/".data l with
    | none => rw [e1] at h; exact Option.noConfusion h
    | some r1 =>
      cases e2 : dropLit "diff --git a/".data l with
      | none => rw [e2] at hd; exact Option.noConfusion hd
      | some r2 =>
        have hb := dropLit_eq_some e1
        have hdf := dropLit_eq_some e2
        rw [hb] at hdf
        rw [show "Binary files a/".data = 'B' :: "inary files a/".data from rfl,
          show "diff --git a/".data = 'd' :: "iff --git a/".data from rfl] at hdf
        simp only [List.cons_append, List.cons.injEq] at hdf
        exact absurd hdf.1 (by decide)

/-- C1: a patch whose lines are a preamble, a first `diff --git` header,
intermediate lines, a second `diff --git` header and a suffix — no other
line matching the diff pattern, no line matching the binary pattern, and
the two headers resolving to distinct keys — splits into exactly two
fragments: the first holds exactly the lines from the first header up to
(excluding) the second header, the second holds the lines from the second
header to the end of input; no line is lost or duplicated and the last
fragment is sealed at end of input. -/
theorem C1_two_fragment_split (t : List Char) (pre mid suf : List (List Char))
    (hd1 hd2 op1 np1 op2 np2 : List Char)
    (hsplit : pySplitNl t = pre ++ hd1 :: (mid ++ hd2 :: suf))
    (hm1 : matchDiffHeader hd1 = some (op1, np1))
    (hm2 : matchDiffHeader hd2 = some (op2, np2))
    (hpre : ∀ l ∈ pre, NonHeader l) (hmid : ∀ l ∈ mid, NonHeader l)
    (hsuf : ∀ l ∈ suf, NonHeader l)
    (hne : resolveKey op1 np1 ≠ resolveKey op2 np2) :
    parse_pr_diff t =
      [(resolveKey op1 np1, joinNl (hd1 :: mid)),
       (resolveKey op2 np2, joinNl (hd2 :: suf))] := by
  have hk1 : resolveKey op1 np1 ≠ [] :=
    resolveKey_ne_nil (matchDiffHeader_ne_nil hm1).1 (matchDiffHeader_ne_nil hm1).2
  have hk2 : resolveKey op2 np2 ≠ [] :=
    resolveKey_ne_nil (matchDiffHeader_ne_nil hm2).1 (matchDiffHeader_ne_nil hm2).2
  unfold parse_pr_diff
  rw [hsplit, prLoop_skip hpre, prLoop_diff hm1, prLoop_acc hmid hk1,
    prLoop_diff hm2, prLoop_final hsuf hk2 [hd2] (by simp)]
  simp [sealFrag, dictInsert, hk1, hne]

/-- Witness for C1 at a concrete two-file patch with a preamble line. -/
theorem C1_two_fragment_split_witness :
    parse_pr_diff
        "preamble\ndiff --git a/a.py b/a.py\n+++ b/a.py\n@@ -1 +1 @@\n-x\n+y\ndiff --git a/b.py b/b.py\n+++ b/b.py".data =
      [("a.py".data, "diff --git a/a.py b/a.py\n+++ b/a.py\n@@ -1 +1 @@\n-x\n+y".data),
       ("b.py".data, "diff --git a/b.py b/b.py\n+++ b/b.py".data)] := by
  have h := C1_two_fragment_split
    "preamble\ndiff --git a/a.py b/a.py\n+++ b/a.py\n@@ -1 +1 @@\n-x\n+y\ndiff --git a/b.py b/b.py\n+++ b/b.py".data
    ["preamble".data]
    ["+++ b/a.py".data, "@@ -1 +1 @@".data, "-x".data, "+y".data]
    ["+++ b/b.py".data]
    "diff --git a/a.py b/a.py".data "diff --git a/b.py b/b.py".data
    "a.py".data "a.py".data "b.py".data "b.py".data
    (by decide) (by decide) (by decide) (by decide) (by decide) (by decide) (by decide)
  rw [h]
  decide

/-- C8: when two fragments resolve to the same key, the output mapping
holds that key exactly once, bound to the raw text of the later
fragment. -/
theorem C8_last_write_wins (t : List Char) (pre mid suf : List (List Char))
    (hd1 hd2 op1 np1 op2 np2 : List Char)
    (hsplit : pySplitNl t = pre ++ hd1 :: (mid ++ hd2 :: suf))
    (hm1 : matchDiffHeader hd1 = some (op1, np1))
    (hm2 : matchDiffHeader hd2 = some (op2, np2))
    (hpre : ∀ l ∈ pre, NonHeader l) (hmid : ∀ l ∈ mid, NonHeader l)
    (hsuf : ∀ l ∈ suf, NonHeader l)
    (heq : resolveKey op1 np1 = resolveKey op2 np2) :
    parse_pr_diff t = [(resolveKey op2 np2, joinNl (hd2 :: suf))] := by
  have hk1 : resolveKey op1 np1 ≠ [] :=
    resolveKey_ne_nil (matchDiffHeader_ne_nil hm1).1 (matchDiffHeader_ne_nil hm1).2
  have hk2 : resolveKey op2 np2 ≠ [] :=
    resolveKey_ne_nil (matchDiffHeader_ne_nil hm2).1 (matchDiffHeader_ne_nil hm2).2
  unfold parse_pr_diff
  rw [hsplit, prLoop_skip hpre, prLoop_diff hm1, prLoop_acc hmid hk1,
    prLoop_diff hm2, prLoop_final hsuf hk2 [hd2] (by simp)]
  simp [sealFrag, dictInsert, hk1, hk2, heq]

/-- Witness for C8 at a patch containing the same path twice. -/
theorem C8_last_write_wins_witness :
    parse_pr_diff
        "diff --git a/a.py b/a.py\n+++ b/a.py\ndiff --git a/a.py b/a.py\n--- a/a.py".data =
      [("a.py".data, "diff --git a/a.py b/a.py\n--- a/a.py".data)] := by
  have h := C8_last_write_wins
    "diff --git a/a.py b/a.py\n+++ b/a.py\ndiff --git a/a.py b/a.py\n--- a/a.py".data
    [] ["+++ b/a.py".data] ["--- a/a.py".data]
    "diff --git a/a.py b/a.py".data "diff --git a/a.py b/a.py".data
    "a.py".data "a.py".data "a.py".data "a.py".data
    (by decide) (by decide) (by decide) (by decide) (by decide) (by decide) (by decide)
  rw [h]
  decide

/-- C7: a `diff --git a/<old> b/<new>` header opens a fragment keyed by
`<new>` unless `<new>` is the deletion sentinel `/dev/null`, in which case
the key is `<old>`; the same resolution applies to `Binary files` marker
lines. -/
theorem C7_key_resolution :
    (∀ (t hdr : List Char) (body : List (List Char)) (op np : List Char),
      pySplitNl t = hdr :: body →
      matchDiffHeader hdr = some (op, np) →
      (∀ l ∈ body, NonHeader l) →
      parse_pr_diff t =
        [(if np = "/dev/null".data then op else np, joinNl (hdr :: body))]) ∧
    (∀ (t bl op np : List Char),
      pySplitNl t = [bl] →
      matchBinary bl = some (op, np) →
      parse_pr_diff t =
        [(if np = "/dev/null".data then op else np,
          joinNl [bl, "Binary file".data])]) := by
  constructor
  · intro t hdr body op np hsplit hm hbody
    have hk : resolveKey op np ≠ [] :=
      resolveKey_ne_nil (matchDiffHeader_ne_nil hm).1 (matchDiffHeader_ne_nil hm).2
    unfold parse_pr_diff
    rw [hsplit, prLoop_diff hm, prLoop_final hbody hk [hdr] (by simp)]
    simp [sealFrag, dictInsert, resolveKey]
  · intro t bl op np hsplit hm
    unfold parse_pr_diff
    rw [hsplit, prLoop_bin (binary_not_diff hm) hm]
    show sealFrag none [] _ = _
    simp [sealFrag, dictInsert, resolveKey]

/-- Witness for C7: a rename keyed by the new path, a deletion keyed by the
old path, and a binary marker line. -/
theorem C7_key_resolution_witness :
    parse_pr_diff "diff --git a/old.py b/new.py\n+++ b/new.py".data =
      [("new.py".data, "diff --git a/old.py b/new.py\n+++ b/new.py".data)] ∧
    parse_pr_diff "diff --git a/gone.py b//dev/null\n--- a/gone.py".data =
      [("gone.py".data, "diff --git a/gone.py b//dev/null\n--- a/gone.py".data)] ∧
    parse_pr_diff "Binary files a/img.png and b/img.png differ".data =
      [("img.png".data,
        "Binary files a/img.png and b/img.png differ\nBinary file".data)] := by
  refine ⟨?_, ?_, ?_⟩
  · have h := C7_key_resolution.1 "diff --git a/old.py b/new.py\n+++ b/new.py".data
      "diff --git a/old.py b/new.py".data ["+++ b/new.py".data]
      "old.py".data "new.py".data (by decide) (by decide) (by decide)
    rw [h]; decide
  · have h := C7_key_resolution.1 "diff --git a/gone.py b//dev/null\n--- a/gone.py".data
      "diff --git a/gone.py b//dev/null".data ["--- a/gone.py".data]
      "gone.py".data "/dev/null".data (by decide) (by decide) (by decide)
    rw [h]; decide
  · have h := C7_key_resolution.2 "Binary files a/img.png and b/img.png differ".data
      "Binary files a/img.png and b/img.png differ".data
      "img.png".data "img.png".data (by decide) (by decide)
    rw [h]; decide

theorem pySplit_no_sep (sep : Char) (l : List Char) :
    ∀ x ∈ pySplit sep l, sep ∉ x := by
  induction l with
  | nil =>
    intro x hx
    simp [pySplit] at hx
    simp [hx]
  | cons c rest ih =>
    intro x hx
    by_cases hc : c = sep
    · subst hc
      simp only [pySplit, if_pos rfl] at hx
      rcases List.mem_cons.mp hx with hx1 | hx2
      · simp [hx1]
      · exact ih x hx2
    · simp only [pySplit, if_neg hc] at hx
      cases hps : pySplit sep rest with
      | nil => exact absurd hps (pySplit_ne_nil sep rest)
      | cons h t =>
        rw [hps] at hx
        rcases List.mem_cons.mp hx with hx1 | hx2
        · subst hx1
          intro hmem
          rcases List.mem_cons.mp hmem with hs | hs
          · exact hc hs.symm
          · exact ih h (by rw [hps]; simp) hs
        · exact ih x (by rw [hps]; simp [hx2])

theorem pySplit_of_no_sep {sep : Char} {x : List Char} (h : sep ∉ x) :
    pySplit sep x = [x] := by
  induction x with
  | nil => rfl
  | cons c cs ih =>
    have hc : ¬ c = sep := fun hh => h (by simp [hh])
    simp only [pySplit, if_neg hc, ih (fun hh => h (by simp [hh]))]

theorem pySplit_append_sep (sep : Char) {x : List Char} (z : List Char)
    (h : sep ∉ x) : pySplit sep (x ++ sep :: z) = x :: pySplit sep z := by
  induction x with
  | nil => simp [pySplit]
  | cons c cs ih =>
    have hc : ¬ c = sep := fun hh => h (by simp [hh])
    have ihh := ih (fun hh => h (by simp [hh]))
    show pySplit sep (c :: (cs ++ sep :: z)) = (c :: cs) :: pySplit sep z
    simp only [pySplit, if_neg hc]
    rw [ihh]

theorem splitNl_joinNl : ∀ (ls : List (List Char)), ls ≠ [] →
    (∀ x ∈ ls, '\n' ∉ x) → pySplitNl (joinNl ls) = ls := by
  intro ls
  induction ls with
  | nil => intro h; exact absurd rfl h
  | cons x rest ih =>
    intro _ hnl
    cases rest with
    | nil =>
      show pySplit '\n' (joinNl [x]) = [x]
      simp only [joinNl]
      exact pySplit_of_no_sep (hnl x (by simp))
    | cons y rest2 =>
      show pySplit '\n' (joinNl (x :: y :: rest2)) = _
      rw [show joinNl (x :: y :: rest2) = x ++ '\n' :: joinNl (y :: rest2) from rfl]
      rw [pySplit_append_sep '\n' _ (hnl x (by simp))]
      have := ih (by simp) (fun l hl => hnl l (by simp [hl]))
      rw [show pySplitNl (joinNl (y :: rest2)) = pySplit '\n' (joinNl (y :: rest2)) from rfl] at this
      rw [this]

theorem dictInsert_mem {k v : List Char} {fs : List (List Char × List Char)}
    {kv : List Char × List Char} (h : kv ∈ dictInsert k v fs) :
    kv = (k, v) ∨ kv ∈ fs := by
  induction fs with
  | nil =>
    simp [dictInsert] at h
    exact Or.inl h
  | cons p rest ih =>
    obtain ⟨k1, v1⟩ := p
    by_cases hk : k1 = k
    · simp only [dictInsert, if_pos hk] at h
      rcases List.mem_cons.mp h with h1 | h2
      · exact Or.inl h1
      · exact Or.inr (by simp [h2])
    · simp only [dictInsert, if_neg hk] at h
      rcases List.mem_cons.mp h with h1 | h2
      · exact Or.inr (by simp [h1])
      · rcases ih h2 with h3 | h4
        · exact Or.inl h3
        · exact Or.inr (by simp [h4])

theorem matchBinary_starts {l : List Char} {p : List Char × List Char}
    (h : matchBinary l = some p) : ∃ r, l = "Binary files a/".data ++ r := by
  unfold matchBinary at h
  cases e1 : dropLit "Binary files a/".data l with
  | none => rw [e1] at h; exact Option.noConfusion h
  | some r => exact ⟨r, dropLit_eq_some e1⟩

theorem diff_not_binary {l : List Char} {p : List Char × List Char}
    (h : matchDiffHeader l = some p) : matchBinary l = none := by
  cases hb : matchBinary l with
  | none => rfl
  | some q => exact absurd h (by rw [binary_not_diff hb]; exact Option.noConfusion)

theorem sealFrag_good {cur : Option (List Char)} {buf : List (List Char)}
    {files : List (List Char × List Char)}
    (hbuf : ∀ l ∈ buf, matchBinary l = none ∧ '\n' ∉ l)
    (hfiles : ∀ kv ∈ files, GoodFrag kv.2) :
    ∀ kv ∈ sealFrag cur buf files, GoodFrag kv.2 := by
  intro kv hkv
  cases cur with
  | none => exact hfiles kv hkv
  | some k =>
    simp only [sealFrag] at hkv
    by_cases hc : k ≠ [] ∧ buf ≠ []
    · rw [if_pos hc] at hkv
      rcases dictInsert_mem hkv with heq | hmem
      · rw [heq]
        left
        intro l hl
        rw [show pySplitNl (k, joinNl buf).2 = pySplitNl (joinNl buf) from rfl,
          splitNl_joinNl buf hc.2 (fun x hx => (hbuf x hx).2)] at hl
        exact (hbuf l hl).1
      · exact hfiles kv hmem
    · rw [if_neg hc] at hkv
      exact hfiles kv hkv

theorem prLoop_collect {l : List Char} (hl : NonHeader l) {k : List Char}
    (hk : k ≠ []) (rest buf files) :
    prLoop (l :: rest) (some k) buf files =
      prLoop rest (some k) (buf ++ [l]) files := by
  rw [prLoop_nonheader hl]
  show (if k ≠ [] then prLoop rest (some k) (buf ++ [l]) files
    else prLoop rest (some k) buf files) = _
  rw [if_pos hk]

theorem prLoop_collect_empty {l : List Char} (hl : NonHeader l) {k : List Char}
    (hk : k = []) (rest buf files) :
    prLoop (l :: rest) (some k) buf files = prLoop rest (some k) buf files := by
  rw [prLoop_nonheader hl]
  show (if k ≠ [] then prLoop rest (some k) (buf ++ [l]) files
    else prLoop rest (some k) buf files) = _
  rw [if_neg (by simp [hk])]

theorem prLoop_drop {l : List Char} (hl : NonHeader l) (rest buf files) :
    prLoop (l :: rest) none buf files = prLoop rest none buf files :=
  prLoop_nonheader hl rest none buf files

theorem prLoop_good : ∀ (ls : List (List Char)) (cur : Option (List Char))
    (buf : List (List Char)) (files : List (List Char × List Char)),
    (∀ l ∈ ls, '\n' ∉ l) →
    (∀ l ∈ buf, matchBinary l = none ∧ '\n' ∉ l) →
    (∀ kv ∈ files, GoodFrag kv.2) →
    ∀ kv ∈ prLoop ls cur buf files, GoodFrag kv.2 := by
  intro ls
  induction ls with
  | nil =>
    intro cur buf files _ hbuf hfiles kv hkv
    exact sealFrag_good hbuf hfiles kv hkv
  | cons line rest ih =>
    intro cur buf files hnl hbuf hfiles kv hkv
    have hnl_rest : ∀ l ∈ rest, '\n' ∉ l := fun l hl => hnl l (by simp [hl])
    have hnl_line : '\n' ∉ line := hnl line (by simp)
    cases hm : matchDiffHeader line with
    | some p =>
      obtain ⟨op, np⟩ := p
      rw [prLoop_diff hm] at hkv
      refine ih _ _ _ hnl_rest ?_ (sealFrag_good hbuf hfiles) kv hkv
      intro l hl
      rcases List.mem_singleton.mp hl with rfl
      exact ⟨diff_not_binary hm, hnl_line⟩
    | none =>
      cases hb : matchBinary line with
      | some p =>
        obtain ⟨op, np⟩ := p
        rw [prLoop_bin hm hb] at hkv
        refine ih _ _ _ hnl_rest (by simp) ?_ kv hkv
        intro kv2 hkv2
        rcases dictInsert_mem hkv2 with heq | hmem
        · rw [heq]
          right
          exact ⟨line, by rw [hb]; exact Option.noConfusion, hnl_line, rfl⟩
        · exact sealFrag_good hbuf hfiles kv2 hmem
      | none =>
        cases cur with
        | none =>
          rw [prLoop_drop ⟨hm, hb⟩] at hkv
          exact ih _ _ _ hnl_rest hbuf hfiles kv hkv
        | some k =>
          by_cases hk : k = []
          · rw [prLoop_collect_empty ⟨hm, hb⟩ hk] at hkv
            exact ih _ _ _ hnl_rest hbuf hfiles kv hkv
          · rw [prLoop_collect ⟨hm, hb⟩ hk] at hkv
            refine ih _ _ _ hnl_rest ?_ hfiles kv hkv
            intro l hl
            rcases List.mem_append.mp hl with h1 | h2
            · exact hbuf l h1
            · rcases List.mem_singleton.mp h2 with rfl
              exact ⟨hb, hnl_line⟩

theorem not_at_of_binary {bl : List Char}
    (h : ∃ r, bl = "Binary files a/".data ++ r) :
    List.isPrefixOf "@@".data bl = false := by
  obtain ⟨r, hr⟩ := h
  subst hr
  rw [show "Binary files a/".data = 'B' :: "inary files a/".data from rfl,
    show "@@".data = ['@', '@'] from rfl]
  have hbe : ('@' == 'B') = false := by decide
  simp [List.isPrefixOf, hbe]

theorem goodFrag_hunks {v : List Char} (hg : GoodFrag v)
    (hb : (pySplitNl v).any (fun l => (matchBinary l).isSome) = true) :
    collectHunks (pySplitNl v) = [] := by
  cases hg with
  | inl hnone =>
    exfalso
    rw [List.any_eq_true] at hb
    obtain ⟨l, hl, hsome⟩ := hb
    rw [hnone l hl] at hsome
    simp at hsome
  | inr hbin =>
    obtain ⟨bl, hbl, hnl, hv⟩ := hbin
    subst hv
    have hsplit : pySplitNl (bl ++ '\n' :: "Binary file".data) =
        [bl, "Binary file".data] := by
      show pySplit '\n' (bl ++ '\n' :: "Binary file".data) = _
      rw [pySplit_append_sep '\n' _ hnl, pySplit_of_no_sep (by decide)]
    rw [hsplit]
    apply collectHunks_nil
    intro l hl
    rcases List.mem_cons.mp hl with rfl | hl2
    · apply not_at_of_binary
      cases hmb : matchBinary l with
      | none => exact absurd hmb hbl
      | some p => exact matchBinary_starts hmb
    · rcases List.mem_singleton.mp hl2 with rfl
      decide

theorem goodFrag_spec {v : List Char} (hg : GoodFrag v)
    (hb : (parse_file_spec v).is_binary = true) :
    (parse_file_spec v).hunks = [] := by
  show collectHunks (pySplitNl v) = []
  exact goodFrag_hunks hg hb


theorem collectHunks_skip {l : List Char}
    (h : List.isPrefixOf "@@".data l = false) (rest : List (List Char)) :
    collectHunks (l :: rest) = collectHunks rest := by
  simp [collectHunks, h]

theorem collectHunks_cons_at {l : List Char}
    (h : List.isPrefixOf "@@".data l = true) (rest : List (List Char)) :
    collectHunks (l :: rest) ≠ [] := by
  simp [collectHunks, h]

theorem dictFind_insert_self (k v : List Char)
    (fs : List (List Char × List Char)) :
    dictFind k (dictInsert k v fs) = some v := by
  induction fs with
  | nil => simp [dictInsert, dictFind]
  | cons p rest ih =>
    obtain ⟨k1, v1⟩ := p
    by_cases hk : k1 = k
    · simp [dictInsert, dictFind, hk]
    · simp [dictInsert, dictFind, hk, ih]

theorem dictFind_insert_ne {k k1 : List Char} (h : k1 ≠ k) (v : List Char)
    (fs : List (List Char × List Char)) :
    dictFind k (dictInsert k1 v fs) = dictFind k fs := by
  induction fs with
  | nil => simp [dictInsert, dictFind, h]
  | cons p rest ih =>
    obtain ⟨k2, v2⟩ := p
    by_cases hk : k2 = k1
    · subst hk
      simp [dictInsert, dictFind, h]
    · simp [dictInsert, dictFind, hk, ih]

theorem sealFrag_lookup {k : List Char} {cur : Option (List Char)}
    (hcur : ∀ k', cur = some k' → k' ≠ k) (buf : List (List Char))
    (files : List (List Char × List Char)) :
    dictFind k (sealFrag cur buf files) = dictFind k files := by
  cases cur with
  | none => rfl
  | some k1 =>
    simp only [sealFrag]
    by_cases hc : k1 ≠ [] ∧ buf ≠ []
    · rw [if_pos hc, dictFind_insert_ne (hcur k1 rfl) _ _]
    · rw [if_neg hc]

theorem prLoop_lookup {k : List Char} : ∀ (ls : List (List Char))
    (cur : Option (List Char)) (buf : List (List Char))
    (files : List (List Char × List Char)),
    (∀ l ∈ ls, ∀ o n, matchDiffHeader l = some (o, n) → resolveKey o n ≠ k) →
    (∀ l ∈ ls, ∀ o n, matchBinary l = some (o, n) → resolveKey o n ≠ k) →
    (∀ k', cur = some k' → k' ≠ k) →
    dictFind k (prLoop ls cur buf files) = dictFind k files := by
  intro ls
  induction ls with
  | nil =>
    intro cur buf files _ _ hcur
    exact sealFrag_lookup hcur buf files
  | cons line rest ih =>
    intro cur buf files hd hb hcur
    have hd_rest : ∀ l ∈ rest, ∀ o n, matchDiffHeader l = some (o, n) →
        resolveKey o n ≠ k := fun l hl => hd l (by simp [hl])
    have hb_rest : ∀ l ∈ rest, ∀ o n, matchBinary l = some (o, n) →
        resolveKey o n ≠ k := fun l hl => hb l (by simp [hl])
    cases hm : matchDiffHeader line with
    | some p =>
      obtain ⟨o, n⟩ := p
      rw [prLoop_diff hm]
      rw [ih _ _ _ hd_rest hb_rest (fun k' hk' => by
        injection hk' with hk2
        rw [← hk2]
        exact hd line (by simp) o n hm)]
      exact sealFrag_lookup hcur buf files
    | none =>
      cases hbm : matchBinary line with
      | some p =>
        obtain ⟨o, n⟩ := p
        rw [prLoop_bin hm hbm]
        rw [ih _ _ _ hd_rest hb_rest (fun k' hk' => Option.noConfusion hk')]
        rw [dictFind_insert_ne (hb line (by simp) o n hbm) _ _]
        exact sealFrag_lookup hcur buf files
      | none =>
        cases cur with
        | none =>
          rw [prLoop_drop ⟨hm, hbm⟩]
          exact ih _ _ _ hd_rest hb_rest (fun k' hk' => Option.noConfusion hk')
        | some k1 =>
          by_cases hk1 : k1 = []
          · rw [prLoop_collect_empty ⟨hm, hbm⟩ hk1]
            exact ih _ _ _ hd_rest hb_rest hcur
          · rw [prLoop_collect ⟨hm, hbm⟩ hk1]
            exact ih _ _ _ hd_rest hb_rest hcur

theorem prLoop_binary_store {k bl o n : List Char}
    (hm : matchBinary bl = some (o, n)) (hk : resolveKey o n = k) :
    ∀ (pre suf : List (List Char)) (cur : Option (List Char))
    (buf : List (List Char)) (files : List (List Char × List Char)),
    (∀ l ∈ suf, ∀ o2 n2, matchDiffHeader l = some (o2, n2) →
      resolveKey o2 n2 ≠ k) →
    (∀ l ∈ suf, ∀ o2 n2, matchBinary l = some (o2, n2) →
      resolveKey o2 n2 ≠ k) →
    dictFind k (prLoop (pre ++ bl :: suf) cur buf files) =
      some (joinNl [bl, "Binary file".data]) := by
  intro pre
  induction pre with
  | nil =>
    intro suf cur buf files hd hb
    rw [List.nil_append, prLoop_bin (binary_not_diff hm) hm]
    rw [prLoop_lookup suf none [] _ hd hb (fun k' hk' => Option.noConfusion hk')]
    rw [hk, dictFind_insert_self]
  | cons l pre2 ih =>
    intro suf cur buf files hd hb
    rw [List.cons_append]
    cases hm2 : matchDiffHeader l with
    | some p =>
      obtain ⟨o2, n2⟩ := p
      rw [prLoop_diff hm2]
      exact ih suf _ _ _ hd hb
    | none =>
      cases hb2 : matchBinary l with
      | some p =>
        obtain ⟨o2, n2⟩ := p
        rw [prLoop_bin hm2 hb2]
        exact ih suf _ _ _ hd hb
      | none =>
        cases cur with
        | none =>
          rw [prLoop_drop ⟨hm2, hb2⟩]
          exact ih suf _ _ _ hd hb
        | some k1 =>
          by_cases hk1 : k1 = []
          · rw [prLoop_collect_empty ⟨hm2, hb2⟩ hk1]
            exact ih suf _ _ _ hd hb
          · rw [prLoop_collect ⟨hm2, hb2⟩ hk1]
            exact ih suf _ _ _ hd hb

/-- C3 (amended, spec-modelled): every `FileDiff` the composed engine
produces with `is_binary = true` has an empty hunk sequence; and for every
input containing a `Binary files ... differ` line whose resolved key is not
rebound by any later `diff --git` or `Binary files` header, the final
mapping binds that key to the two-line binary fragment, whose `FileDiff`
has `is_binary = true` and no hunks. -/
theorem C3_binary_invariant :
    (∀ (t k : List Char) (fd : FileDiffB),
      (k, fd) ∈ parsePatch t → fd.is_binary = true → fd.hunks = []) ∧
    (∀ (t bl o n : List Char) (pre suf : List (List Char)),
      pySplitNl t = pre ++ bl :: suf →
      matchBinary bl = some (o, n) →
      (∀ l ∈ suf, ∀ o2 n2, matchDiffHeader l = some (o2, n2) →
        resolveKey o2 n2 ≠ resolveKey o n) →
      (∀ l ∈ suf, ∀ o2 n2, matchBinary l = some (o2, n2) →
        resolveKey o2 n2 ≠ resolveKey o n) →
      dictFind (resolveKey o n) (parse_pr_diff t) =
        some (joinNl [bl, "Binary file".data]) ∧
      (parse_file_spec (joinNl [bl, "Binary file".data])).is_binary = true ∧
      (parse_file_spec (joinNl [bl, "Binary file".data])).hunks = []) := by
  constructor
  · intro t k fd hmem hbin
    unfold parsePatch at hmem
    rw [List.mem_map] at hmem
    obtain ⟨kv, hkv, heq⟩ := hmem
    have hgood : GoodFrag kv.2 :=
      prLoop_good (pySplitNl t) none [] []
        (fun l hl => pySplit_no_sep '\n' t l hl) (by simp) (by simp) kv hkv
    have hfd : fd = parse_file_spec kv.2 := (congrArg Prod.snd heq).symm
    rw [hfd] at hbin ⊢
    exact goodFrag_spec hgood hbin
  · intro t bl o n pre suf hsplit hm hd hb
    have hblmem : bl ∈ pySplitNl t := by rw [hsplit]; simp
    have hnl : '\n' ∉ bl := pySplit_no_sep '\n' t bl hblmem
    have hnomem : ∀ x ∈ [bl, "Binary file".data], '\n' ∉ x := by
      intro x hx
      rcases List.mem_cons.mp hx with rfl | hx2
      · exact hnl
      · rcases List.mem_singleton.mp hx2 with rfl
        decide
    have hsj : pySplitNl (joinNl [bl, "Binary file".data]) =
        [bl, "Binary file".data] :=
      splitNl_joinNl [bl, "Binary file".data] (by simp) hnomem
    refine ⟨?_, ?_, ?_⟩
    · show dictFind (resolveKey o n) (prLoop (pySplitNl t) none [] []) = _
      rw [hsplit]
      exact prLoop_binary_store hm rfl pre suf none [] [] hd hb
    · show (pySplitNl (joinNl [bl, "Binary file".data])).any
        (fun l => (matchBinary l).isSome) = true
      rw [hsj]
      simp [hm]
    · show collectHunks (pySplitNl (joinNl [bl, "Binary file".data])) = []
      rw [hsj]
      apply collectHunks_nil
      intro l hl
      rcases List.mem_cons.mp hl with rfl | hl2
      · exact not_at_of_binary (matchBinary_starts hm)
      · rcases List.mem_singleton.mp hl2 with rfl
        decide

/-- Witness for C3 at the spec's binary example, exercising both the
general invariant and the binary-key conclusion. -/
theorem C3_binary_invariant_witness :
    (parse_file_spec
      "Binary files a/img.png and b/img.png differ\nBinary file".data).hunks = [] ∧
    dictFind (resolveKey "img.png".data "img.png".data)
        (parse_pr_diff "Binary files a/img.png and b/img.png differ".data) =
      some (joinNl ["Binary files a/img.png and b/img.png differ".data,
        "Binary file".data]) := by
  constructor
  · apply C3_binary_invariant.1 "Binary files a/img.png and b/img.png differ".data
      "img.png".data
    · unfold parsePatch
      rw [show parse_pr_diff "Binary files a/img.png and b/img.png differ".data =
        [("img.png".data,
          "Binary files a/img.png and b/img.png differ\nBinary file".data)] from by decide]
      simp
    · decide
  · exact (C3_binary_invariant.2
      "Binary files a/img.png and b/img.png differ".data
      "Binary files a/img.png and b/img.png differ".data
      "img.png".data "img.png".data [] []
      (by decide) (by decide) (by simp) (by simp)).1

/-- Counterexample to C3 as stated: in the input
`Binary files a/x and b/x differ` followed by a `diff --git a/x b/x` text
diff, the later fragment overwrites key `x` (last write wins), so the
resulting `FileDiff` for file `x` has `is_binary = false` and a nonempty
hunk list even though the input contains a binary marker line. -/
theorem C3_overwrite_counterexample :
    "Binary files a/x and b/x differ".data ∈
      pySplitNl "Binary files a/x and b/x differ\ndiff --git a/x b/x\n@@ -1 +1 @@\n+y".data ∧
    matchBinary "Binary files a/x and b/x differ".data =
      some ("x".data, "x".data) ∧
    parse_pr_diff
        "Binary files a/x and b/x differ\ndiff --git a/x b/x\n@@ -1 +1 @@\n+y".data =
      [("x".data, "diff --git a/x b/x\n@@ -1 +1 @@\n+y".data)] ∧
    (parse_file_spec "diff --git a/x b/x\n@@ -1 +1 @@\n+y".data).is_binary = false ∧
    (parse_file_spec "diff --git a/x b/x\n@@ -1 +1 @@\n+y".data).hunks ≠ [] := by
  refine ⟨by decide, by decide, by decide, by decide, ?_⟩
  show collectHunks (pySplitNl "diff --git a/x b/x\n@@ -1 +1 @@\n+y".data) ≠ []
  rw [show pySplitNl "diff --git a/x b/x\n@@ -1 +1 @@\n+y".data =
    ["diff --git a/x b/x".data, "@@ -1 +1 @@".data, "+y".data] from by decide]
  rw [collectHunks_skip (by decide)]
  exact collectHunks_cons_at (by decide) _
